import Mathlib

/-!
# LinkedPointerList

A verification development for `src/LinkedPointerList.h`, a singly linked list of
borrowed pointers with an 8-bit element count and no tail pointer.

## Embedding

* A payload pointer `T*` is a natural number (an address); `NULL` is `0`.
* A `PointerListNode<T>*` is a `NodePtr`: either `null` or a node carrying its
  `data` and the chain its `next` field points to.  Every node is owned by exactly
  one `next` field (or by `root`), so a chain is a finite tree-shaped value.
* The class fields are the structure `LinkedPointerList`; `_size` is an
  `unsigned char`, kept as a natural number with every write reduced modulo 256.
* `int` values are mathematical integers; passing an `int` to the
  `unsigned char` parameter of `getNode` is the conversion `toUChar`.
* A member function that mutates the object returns the new object together
  with its C++ return value.  Dereferencing a null node pointer has no defined
  result: such a run is `none`.
* `new` is assumed to succeed; `delete` of an unlinked node has no effect on the
  remaining chain.
-/

namespace LinkedPointerList

/-- Payload pointer `T*`, an address. -/
abbrev Ptr := Nat

/-- The null payload pointer. -/
def NULL : Ptr := 0

/-- Pointer to a `PointerListNode<T>`: null, or a node with its `data` and the
chain reached through its `next` field. -/
inductive NodePtr where
  | null : NodePtr
  | node (data : Ptr) (next : NodePtr) : NodePtr
  deriving DecidableEq, Repr

end LinkedPointerList

/-- The fields of `class LinkedPointerList`: the 8-bit count and the head of the chain. -/
structure LinkedPointerList where
  _size : Nat
  root : LinkedPointerList.NodePtr
  deriving DecidableEq, Repr

namespace LinkedPointerList

/-- Conversion of an `int` to `unsigned char` (reduction modulo 256). -/
def toUChar (i : Int) : Nat := (i % 256).toNat

/-- The statement `_size++` on an `unsigned char`. -/
def incr (n : Nat) : Nat := (n + 1) % 256

/-- The statement `_size--` on an `unsigned char`. -/
def decr (n : Nat) : Nat := (n + 255) % 256

/-- The constructor: `root = NULL; _size = 0`. -/
def empty : LinkedPointerList := { _size := 0, root := .null }

/-- The loop of `getNode`, started with `current` and `_pos`; it returns the final
`(_pos, current)`.  The loop runs while `_pos < index && current`. -/
def getNodeLoop (index : Nat) : NodePtr → Nat → Nat × NodePtr
  | .null, pos => (pos, .null)
  | .node d nx, pos =>
    if pos < index then getNodeLoop index nx (pos + 1) else (pos, .node d nx)

/-- The member `getNode(unsigned char index)`: walk from `root`, return `current`
when `_pos == index` and `NULL` otherwise. -/
def getNode (s : LinkedPointerList) (index : Nat) : NodePtr :=
  let r := getNodeLoop index s.root 0
  if r.1 = index then r.2 else .null

/-- A write through a node pointer obtained by `getNode(pos)`: the node at position
`pos` of the chain becomes `n` (its `data` and `next` fields as written).  The
operations write only through a non-null result of `getNode`; a position past the
end leaves the chain as it is. -/
def store : NodePtr → Nat → NodePtr → NodePtr
  | .null, _, _ => .null
  | .node _ _, 0, n => n
  | .node d nx, k + 1, n => .node d (store nx k n)

/-- The member `size()`. -/
def size (s : LinkedPointerList) : Int := (s._size : Int)

/-- The member `add(T*)`: append at the end. -/
def add (s : LinkedPointerList) (t : Ptr) : Option (LinkedPointerList × Bool) :=
  let tmp := NodePtr.node t .null
  match s.root with
  | .node _ _ =>
    let i := toUChar (size s - 1)
    match getNode s i with
    | .null => none
    | .node d _ =>
      some ({ _size := incr s._size, root := store s.root i (.node d tmp) }, true)
  | .null => some ({ _size := incr s._size, root := tmp }, true)

/-- The member `unshift(T*)`: insert at the front. -/
def unshift (s : LinkedPointerList) (t : Ptr) : Option (LinkedPointerList × Bool) :=
  if s._size = 0 then add s t
  else some ({ _size := incr s._size, root := .node t s.root }, true)

/-- The member `add(int index, T*)`: insert at a position. -/
def addAt (s : LinkedPointerList) (index : Int) (t : Ptr) :
    Option (LinkedPointerList × Bool) :=
  if index ≥ (s._size : Int) then add s t
  else if index = 0 then unshift s t
  else
    let i := toUChar (index - 1)
    match getNode s i with
    | .null => none
    | .node d nx =>
      some ({ _size := incr s._size, root := store s.root i (.node d (.node t nx)) }, true)

/-- The member `set(int index, T*)`. -/
def set (s : LinkedPointerList) (index : Int) (t : Ptr) :
    Option (LinkedPointerList × Bool) :=
  if index < 0 ∨ index ≥ (s._size : Int) then some (s, false)
  else
    let i := toUChar index
    match getNode s i with
    | .null => none
    | .node _ nx => some ({ s with root := store s.root i (.node t nx) }, true)

/-- The member `pop()`: remove the last entry. -/
def pop (s : LinkedPointerList) : Option (LinkedPointerList × Ptr) :=
  if s._size ≤ 0 then some (s, NULL)
  else if s._size ≥ 2 then
    let i := toUChar ((s._size : Int) - 2)
    match getNode s i with
    | .null => none
    | .node d nx =>
      match nx with
      | .null => none
      | .node ret _ =>
        some ({ _size := decr s._size, root := store s.root i (.node d .null) }, ret)
  else
    match s.root with
    | .null => none
    | .node ret _ => some ({ _size := 0, root := .null }, ret)

/-- The member `shift()`: remove the first entry. -/
def shift (s : LinkedPointerList) : Option (LinkedPointerList × Ptr) :=
  if s._size ≤ 0 then some (s, NULL)
  else if s._size > 1 then
    match s.root with
    | .null => none
    | .node ret _next => some ({ _size := decr s._size, root := _next }, ret)
  else pop s

/-- The member `remove(int index)`. -/
def remove (s : LinkedPointerList) (index : Int) : Option (LinkedPointerList × Ptr) :=
  if index < 0 ∨ index ≥ (s._size : Int) then some (s, NULL)
  else if index = 0 then shift s
  else if index = (s._size : Int) - 1 then pop s
  else
    let i := toUChar (index - 1)
    match getNode s i with
    | .null => none
    | .node d toDelete =>
      match toDelete with
      | .null => none
      | .node ret nn =>
        some ({ _size := decr s._size, root := store s.root i (.node d nn) }, ret)

/-- The member `get(int index)`. -/
def get (s : LinkedPointerList) (index : Int) : Ptr :=
  match getNode s (toUChar index) with
  | .null => NULL
  | .node d _ => d

/-- The loop of `clear()`: unlink and delete nodes until `root` is null. -/
def clearLoop : NodePtr → NodePtr
  | .null => .null
  | .node _ nx => clearLoop nx

/-- The member `clear()`. -/
def clear (s : LinkedPointerList) : LinkedPointerList :=
  { _size := 0, root := clearLoop s.root }

/-! ## Specification vocabulary -/

/-- The stored pointers, in chain order. -/
def payloads : NodePtr → List Ptr
  | .null => []
  | .node d nx => d :: payloads nx

/-- The number of nodes reachable from a node pointer. -/
def chainLength : NodePtr → Nat
  | .null => 0
  | .node _ nx => chainLength nx + 1

/-- The chain holding the given pointers, in order. -/
def ofList : List Ptr → NodePtr
  | [] => .null
  | x :: xs => .node x (ofList xs)

/-- The node pointer reached after following `next` `k` times. -/
def advance : Nat → NodePtr → NodePtr
  | 0, c => c
  | _ + 1, .null => .null
  | k + 1, .node _ nx => advance k nx

/-- Well-formed list with `n` entries: the chain from `root` has `n` nodes and
`_size == n`. -/
def WellFormed (s : LinkedPointerList) (n : Nat) : Prop :=
  chainLength s.root = n ∧ s._size = n

instance (s : LinkedPointerList) (n : Nat) : Decidable (WellFormed s n) := by
  unfold WellFormed; infer_instance

/-- The call sequence `add(x_0); ...; add(x_{k-1})`. -/
def addAll (s : LinkedPointerList) : List Ptr → Option LinkedPointerList
  | [] => some s
  | x :: xs =>
    match add s x with
    | none => none
    | some r => addAll r.1 xs

/-- The list invariant: the chain reachable from `root` has exactly `_size` nodes,
where `_size`, an `unsigned char`, is at most 255. -/
def Invariant (s : LinkedPointerList) : Prop :=
  chainLength s.root = s._size ∧ s._size ≤ 255

instance (s : LinkedPointerList) : Decidable (Invariant s) := by
  unfold Invariant; infer_instance

/-- A call of one of the public member functions, with its arguments. -/
inductive Call where
  | size : Call
  | get (index : Int) : Call
  | set (index : Int) (t : Ptr) : Call
  | remove (index : Int) : Call
  | pop : Call
  | shift : Call
  | clear : Call
  | add (t : Ptr) : Call
  | unshift (t : Ptr) : Call
  | addAt (index : Int) (t : Ptr) : Call
  deriving DecidableEq, Repr

/-- The object after a call; `none` when the call has no defined result.  `size()`
and `get` write no field. -/
def perform (s : LinkedPointerList) : Call → Option LinkedPointerList
  | .size => some s
  | .get _ => some s
  | .set index t => (set s index t).map Prod.fst
  | .remove index => (remove s index).map Prod.fst
  | .pop => (pop s).map Prod.fst
  | .shift => (shift s).map Prod.fst
  | .clear => some (clear s)
  | .add t => (add s t).map Prod.fst
  | .unshift t => (unshift s t).map Prod.fst
  | .addAt index t => (addAt s index t).map Prod.fst

/-- The calls considered for the invariant: every call of `size`, `get`, `set`,
`remove`, `pop`, `shift` and `clear`; insertions only while the list holds fewer
than 255 entries, and `add(index, x)` only with `index >= 0`. -/
def admitted (s : LinkedPointerList) : Call → Bool
  | .add _ => decide (s._size < 255)
  | .unshift _ => decide (s._size < 255)
  | .addAt index _ => decide (s._size < 255) && decide (0 ≤ index)
  | _ => true

/-- A sequence of admitted calls, performed in order from the state `s`; `none` when
a call is not admitted or has no defined result. -/
def run (s : LinkedPointerList) : List Call → Option LinkedPointerList
  | [] => some s
  | c :: cs =>
    if admitted s c then
      match perform s c with
      | none => none
      | some s1 => run s1 cs
    else none

/-! ## Chains and the traversal primitive -/

theorem length_payloads (c : NodePtr) : (payloads c).length = chainLength c := by
  induction c with
  | null => rfl
  | node d nx ih => simp [payloads, chainLength, ih]

theorem payloads_ofList (xs : List Ptr) : payloads (ofList xs) = xs := by
  induction xs with
  | nil => rfl
  | cons x xs ih => simp [payloads, ofList, ih]

theorem ofList_payloads (c : NodePtr) : ofList (payloads c) = c := by
  induction c with
  | null => rfl
  | node d nx ih => simp [payloads, ofList, ih]

theorem chainLength_ofList (xs : List Ptr) : chainLength (ofList xs) = xs.length := by
  rw [← length_payloads, payloads_ofList]

theorem eq_ofList_of_payloads {c : NodePtr} {xs : List Ptr} (h : payloads c = xs) :
    c = ofList xs := by
  rw [← h, ofList_payloads]

theorem advance_null (k : Nat) : advance k .null = .null := by
  cases k <;> rfl

theorem payloads_advance (k : Nat) (c : NodePtr) :
    payloads (advance k c) = (payloads c).drop k := by
  induction k generalizing c with
  | zero => simp [advance]
  | succ k ih =>
    cases c with
    | null => simp [advance, payloads]
    | node d nx => simp [advance, payloads, ih]

theorem advance_of_length_le (k : Nat) (c : NodePtr) (h : chainLength c ≤ k) :
    advance k c = .null := by
  have h1 : payloads (advance k c) = [] := by
    rw [payloads_advance, List.drop_eq_nil_iff, length_payloads]; exact h
  cases hc : advance k c with
  | null => rfl
  | node d nx => rw [hc] at h1; simp [payloads] at h1

theorem getNodeLoop_eq (index : Nat) (c : NodePtr) (pos : Nat) (h : pos ≤ index) :
    getNodeLoop index c pos =
      if index - pos ≤ chainLength c then (index, advance (index - pos) c)
      else (pos + chainLength c, .null) := by
  induction c generalizing pos with
  | null =>
    by_cases hp : index - pos ≤ 0
    · have : pos = index := by omega
      subst this
      simp [getNodeLoop, chainLength, advance]
    · simp [getNodeLoop, chainLength, hp]
  | node d nx ih =>
    by_cases hp : pos < index
    · have e : index - pos = (index - (pos + 1)) + 1 := by omega
      rw [getNodeLoop, if_pos hp, ih (pos + 1) hp, e]
      by_cases hl : index - (pos + 1) ≤ chainLength nx
      · simp [hl, chainLength, advance]
      · simp [hl, chainLength]
        omega
    · have : pos = index := by omega
      subst this
      simp [getNodeLoop, advance]

/-- The traversal primitive follows `next` exactly `index` times. -/
theorem getNode_eq_advance (s : LinkedPointerList) (index : Nat) :
    getNode s index = advance index s.root := by
  unfold getNode
  rw [getNodeLoop_eq index s.root 0 (Nat.zero_le _)]
  by_cases hl : index ≤ chainLength s.root
  · simp [hl]
  · have hl2 : chainLength s.root ≤ index := by omega
    have hne : ¬ chainLength s.root = index := by omega
    simp [hl, hne, advance_of_length_le index s.root hl2]

theorem advance_eq_node (k : Nat) (c : NodePtr) (h : k < chainLength c) :
    ∃ d nx, advance k c = .node d nx ∧
      payloads c = (payloads c).take k ++ d :: payloads nx := by
  induction k generalizing c with
  | zero =>
    cases c with
    | null => simp [chainLength] at h
    | node d nx => exact ⟨d, nx, rfl, by simp [payloads]⟩
  | succ k ih =>
    cases c with
    | null => simp [chainLength] at h
    | node d nx =>
      have hk : k < chainLength nx := by simp [chainLength] at h; omega
      obtain ⟨d1, nx1, h1, h2⟩ := ih nx hk
      refine ⟨d1, nx1, by simpa [advance] using h1, ?_⟩
      simp only [payloads, List.take_succ_cons, List.cons_append]
      rw [← h2]

theorem payloads_store (c : NodePtr) (k : Nat) (n : NodePtr) (h : k < chainLength c) :
    payloads (store c k n) = (payloads c).take k ++ payloads n := by
  induction c generalizing k with
  | null => simp [chainLength] at h
  | node d nx ih =>
    cases k with
    | zero => simp [store]
    | succ k =>
      have hk : k < chainLength nx := by simp [chainLength] at h; omega
      simp [store, payloads, ih k hk]

theorem get_eq_getD (s : LinkedPointerList) (index : Int) :
    get s index = (payloads s.root).getD (toUChar index) NULL := by
  unfold get
  rw [getNode_eq_advance]
  generalize toUChar index = k
  generalize s.root = c
  induction k generalizing c with
  | zero => cases c <;> simp [advance, payloads]
  | succ k ih =>
    cases c with
    | null => simp [advance, payloads]
    | node d nx => simpa [advance, payloads] using ih nx

theorem toUChar_ofNat (k : Nat) (h : k < 256) : toUChar (k : Int) = k := by
  unfold toUChar
  omega

theorem toUChar_sub_one (k : Nat) (h0 : 0 < k) (h : k ≤ 256) :
    toUChar ((k : Int) - 1) = k - 1 := by
  unfold toUChar
  omega

/-! ## What each operation does to a well-formed list -/

theorem payloads_tail_nil {c nx : NodePtr} {k : Nat} {d : Ptr}
    (hl : chainLength c = k + 1)
    (h : payloads c = (payloads c).take k ++ d :: payloads nx) : nx = .null := by
  have h1 := congrArg List.length h
  rw [List.length_append, List.length_take, length_payloads, List.length_cons,
    length_payloads, hl] at h1
  cases nx with
  | null => rfl
  | node e r => simp [chainLength] at h1

theorem add_eq (s : LinkedPointerList) (n : Nat) (x : Ptr) (h : WellFormed s n)
    (hn : n ≤ 255) :
    add s x = some (⟨incr n, ofList (payloads s.root ++ [x])⟩, true) := by
  obtain ⟨sz, root⟩ := s
  obtain ⟨hl, hs⟩ := h
  simp only at hl hs
  subst hs
  cases root with
  | null => simp [add, payloads, ofList]
  | node d0 nx0 =>
    have hpos : 0 < sz := by rw [← hl]; simp [chainLength]
    have hi : toUChar (size ⟨sz, .node d0 nx0⟩ - 1) = sz - 1 :=
      toUChar_sub_one sz hpos (by omega)
    obtain ⟨d, nx, h1, h2⟩ := advance_eq_node (sz - 1) (.node d0 nx0) (by omega)
    have hnx : nx = .null := payloads_tail_nil (by omega) h2
    subst hnx
    simp only [add, hi, getNode_eq_advance, h1]
    have hp : payloads (store (.node d0 nx0) (sz - 1) (.node d (.node x .null))) =
        payloads (.node d0 nx0) ++ [x] := by
      rw [payloads_store _ _ _ (by omega)]
      conv_rhs => rw [h2]
      simp [payloads]
    rw [eq_ofList_of_payloads hp]

theorem drop_split (xs : List Ptr) (k : Nat) (d : Ptr) (r : List Ptr)
    (h : xs.drop k = d :: r) :
    xs.take (k + 1) = xs.take k ++ [d] ∧ xs.drop (k + 1) = r ∧ xs.getD k NULL = d := by
  induction k generalizing xs with
  | zero =>
    cases xs with
    | nil => simp at h
    | cons a t =>
      simp at h
      simp [h.1, h.2]
  | succ k ih =>
    cases xs with
    | nil => simp at h
    | cons a t =>
      simp only [List.drop_succ_cons] at h
      obtain ⟨h1, h2, h3⟩ := ih t h
      refine ⟨?_, ?_, ?_⟩
      · simp [h1]
      · simpa using h2
      · simpa using h3

theorem advance_drop (k : Nat) (c : NodePtr) (h : k < chainLength c) :
    ∃ d nx, advance k c = .node d nx ∧ (payloads c).drop k = d :: payloads nx := by
  have h0 := payloads_advance k c
  cases hc : advance k c with
  | null =>
    rw [hc] at h0
    have := congrArg List.length h0
    simp [payloads, length_payloads] at this
    omega
  | node d nx =>
    rw [hc] at h0
    exact ⟨d, nx, rfl, by rw [← h0]; rfl⟩

theorem payloads_eq_nil {c : NodePtr} (h : chainLength c = 0) : payloads c = [] := by
  cases c with
  | null => rfl
  | node d nx => simp [chainLength] at h

theorem incr_of_lt (n : Nat) (h : n < 255) : incr n = n + 1 := by
  unfold incr; omega

theorem decr_of_pos (n : Nat) (h0 : 0 < n) (h : n ≤ 255) : decr n = n - 1 := by
  unfold decr; omega

theorem unshift_eq (s : LinkedPointerList) (n : Nat) (x : Ptr) (h : WellFormed s n)
    (hn : n ≤ 255) :
    unshift s x = some (⟨incr n, ofList (x :: payloads s.root)⟩, true) := by
  have hl := h.1
  have hs := h.2
  by_cases h0 : s._size = 0
  · have hnil : payloads s.root = [] := payloads_eq_nil (by omega)
    rw [unshift, if_pos h0, add_eq s n x h hn, hnil]
    rfl
  · rw [unshift, if_neg h0, hs]
    simp [ofList, ofList_payloads]

theorem addAt_eq (s : LinkedPointerList) (n : Nat) (index : Int) (x : Ptr)
    (h : WellFormed s n) (hn : n ≤ 255) (hi : 0 ≤ index) :
    addAt s index x =
      some (⟨incr n, ofList ((payloads s.root).take (min index.toNat n) ++
        x :: (payloads s.root).drop (min index.toNat n))⟩, true) := by
  have hl := h.1
  have hs := h.2
  have hlen : (payloads s.root).length = n := by rw [length_payloads, hl]
  by_cases h1 : index ≥ (s._size : Int)
  · have hm : min index.toNat n = n := by omega
    rw [addAt, if_pos h1, add_eq s n x h hn, hm, List.take_of_length_le (by omega),
      List.drop_of_length_le (by omega)]
  · by_cases h2 : index = 0
    · subst h2
      rw [addAt, if_neg h1, if_pos rfl, unshift_eq s n x h hn]
      simp
    · obtain ⟨k, rfl⟩ : ∃ k : Nat, index = ((k + 1 : Nat) : Int) :=
        ⟨index.toNat - 1, by omega⟩
      have hk : k + 1 < n := by rw [hs] at h1; omega
      have hm : min ((k + 1 : Nat) : Int).toNat n = k + 1 := by omega
      have hu : toUChar (((k + 1 : Nat) : Int) - 1) = k := by unfold toUChar; omega
      obtain ⟨d, nx, e1, e2⟩ := advance_drop k s.root (by omega)
      obtain ⟨t1, t2, _⟩ := drop_split _ _ _ _ e2
      rw [addAt, if_neg h1, if_neg h2]
      simp only [hu, getNode_eq_advance, e1, hs, hm]
      have hp : payloads (store s.root k (.node d (.node x nx))) =
          (payloads s.root).take (k + 1) ++ x :: (payloads s.root).drop (k + 1) := by
        rw [payloads_store _ _ _ (by omega), t1, t2]
        simp [payloads]
      rw [eq_ofList_of_payloads hp]

theorem set_eq (s : LinkedPointerList) (n : Nat) (k : Nat) (x : Ptr)
    (h : WellFormed s n) (hn : n ≤ 255) (hk : k < n) :
    set s (k : Int) x =
      some (⟨n, ofList ((payloads s.root).take k ++ x :: (payloads s.root).drop (k + 1))⟩,
        true) := by
  have hl := h.1
  have hs := h.2
  have hg : ¬ ((k : Int) < 0 ∨ (k : Int) ≥ (s._size : Int)) := by omega
  obtain ⟨d, nx, e1, e2⟩ := advance_drop k s.root (by omega)
  obtain ⟨_, t2, _⟩ := drop_split _ _ _ _ e2
  rw [set, if_neg hg]
  simp only [toUChar_ofNat k (by omega), getNode_eq_advance, e1, hs]
  have hp : payloads (store s.root k (.node x nx)) =
      (payloads s.root).take k ++ x :: (payloads s.root).drop (k + 1) := by
    rw [payloads_store _ _ _ (by omega), t2]
    simp [payloads]
  rw [eq_ofList_of_payloads hp]

theorem pop_empty (s : LinkedPointerList) (h : WellFormed s 0) : pop s = some (s, NULL) := by
  have hs := h.2
  rw [pop, if_pos (by omega)]

theorem pop_eq (s : LinkedPointerList) (n : Nat) (h : WellFormed s n) (h0 : 1 ≤ n)
    (hn : n ≤ 255) :
    pop s = some (⟨n - 1, ofList ((payloads s.root).take (n - 1))⟩,
      (payloads s.root).getD (n - 1) NULL) := by
  have hl := h.1
  have hs := h.2
  have h1 : ¬ s._size ≤ 0 := by omega
  by_cases h2 : s._size ≥ 2
  · have hu : toUChar ((n : Int) - 2) = n - 2 := by unfold toUChar; omega
    obtain ⟨d, nx, e1, e2⟩ := advance_drop (n - 2) s.root (by omega)
    obtain ⟨t1, t2, _⟩ := drop_split _ _ _ _ e2
    have hn1 : n - 2 + 1 = n - 1 := by omega
    rw [hn1] at t1 t2
    have hlen := congrArg List.length t2
    rw [List.length_drop, length_payloads, length_payloads, hl] at hlen
    cases nx with
    | null => simp [chainLength] at hlen; omega
    | node ret nn =>
      obtain ⟨_, _, t3⟩ := drop_split _ _ _ _ t2
      rw [pop, if_neg h1, if_pos h2]
      simp only [hs, hu, getNode_eq_advance, e1, decr_of_pos n h0 hn, t3]
      have hp : payloads (store s.root (n - 2) (.node d .null)) =
          (payloads s.root).take (n - 1) := by
        rw [payloads_store _ _ _ (by omega), t1]
        simp [payloads]
      rw [eq_ofList_of_payloads hp]
  · have hn1 : n = 1 := by omega
    subst hn1
    obtain ⟨sz, root⟩ := s
    simp only at hl hs h1 h2
    cases root with
    | null => simp [chainLength] at hl
    | node ret nx => simp [pop, h1, h2, payloads, ofList]

theorem shift_empty (s : LinkedPointerList) (h : WellFormed s 0) :
    shift s = some (s, NULL) := by
  have hs := h.2
  rw [shift, if_pos (by omega)]

theorem shift_eq (s : LinkedPointerList) (n : Nat) (h : WellFormed s n) (h0 : 1 ≤ n)
    (hn : n ≤ 255) :
    shift s = some (⟨n - 1, ofList ((payloads s.root).drop 1)⟩,
      (payloads s.root).getD 0 NULL) := by
  have hl := h.1
  have hs := h.2
  have h1 : ¬ s._size ≤ 0 := by omega
  by_cases h2 : s._size > 1
  · obtain ⟨sz, root⟩ := s
    simp only at hl hs h1 h2
    cases root with
    | null => simp [chainLength] at hl; omega
    | node ret nx =>
      subst hs
      simp [shift, h1, h2, payloads, ofList_payloads, decr_of_pos sz h0 hn]
  · have hn1 : n = 1 := by omega
    subst hn1
    rw [shift, if_neg h1, if_neg h2, pop_eq s 1 h h0 hn]
    have hlen : (payloads s.root).length = 1 := by rw [length_payloads, hl]
    match hp : payloads s.root, hlen with
    | [a], _ => rfl

theorem remove_eq (s : LinkedPointerList) (n : Nat) (k : Nat) (h : WellFormed s n)
    (hn : n ≤ 255) (hk : k < n) :
    remove s (k : Int) =
      some (⟨n - 1, ofList ((payloads s.root).take k ++ (payloads s.root).drop (k + 1))⟩,
        (payloads s.root).getD k NULL) := by
  have hl := h.1
  have hs := h.2
  have hlen : (payloads s.root).length = n := by rw [length_payloads, hl]
  have hg : ¬ ((k : Int) < 0 ∨ (k : Int) ≥ (s._size : Int)) := by omega
  rw [remove, if_neg hg]
  by_cases h2 : (k : Int) = 0
  · have hk0 : k = 0 := by omega
    subst hk0
    rw [if_pos h2, shift_eq s n h (by omega) hn]
    simp
  · rw [if_neg h2]
    by_cases h3 : (k : Int) = (s._size : Int) - 1
    · have hk1 : k = n - 1 := by omega
      subst hk1
      have e : n - 1 + 1 = n := by omega
      rw [if_pos h3, pop_eq s n h (by omega) hn, e, List.drop_of_length_le (by omega)]
      simp
    · rw [if_neg h3]
      have hu : toUChar ((k : Int) - 1) = k - 1 := toUChar_sub_one k (by omega) (by omega)
      obtain ⟨d, nx, e1, e2⟩ := advance_drop (k - 1) s.root (by omega)
      obtain ⟨t1, t2, _⟩ := drop_split _ _ _ _ e2
      have hk1 : k - 1 + 1 = k := by omega
      rw [hk1] at t1 t2
      have hlen2 := congrArg List.length t2
      rw [List.length_drop, length_payloads, length_payloads, hl] at hlen2
      cases nx with
      | null => simp [chainLength] at hlen2; omega
      | node ret nn =>
        obtain ⟨_, t4, t3⟩ := drop_split _ _ _ _ t2
        simp only [hs, hu, getNode_eq_advance, e1, decr_of_pos n (by omega) hn, t3]
        have hp : payloads (store s.root (k - 1) (.node d nn)) =
            (payloads s.root).take k ++ (payloads s.root).drop (k + 1) := by
          rw [payloads_store _ _ _ (by omega), t1, t4]
          simp [payloads]
        rw [eq_ofList_of_payloads hp]

/-! ## Reading positions of the lists the operations build -/

theorem getD_take_append_lt (xs r : List Ptr) (p j : Nat) (d0 : Ptr) (hj : j < p)
    (hp : p ≤ xs.length) : (xs.take p ++ r).getD j d0 = xs.getD j d0 := by
  simp only [List.getD_eq_getElem?_getD]
  rw [List.getElem?_append_left (by simp; omega), List.getElem?_take_of_lt hj]

theorem getD_take_append_ge (xs r : List Ptr) (p j : Nat) (d0 : Ptr)
    (hp : p ≤ xs.length) : (xs.take p ++ r).getD (p + j) d0 = r.getD j d0 := by
  simp only [List.getD_eq_getElem?_getD]
  rw [List.getElem?_append_right (by simp), List.length_take, Nat.min_eq_left hp]
  simp

theorem getD_drop (xs : List Ptr) (p j : Nat) (d0 : Ptr) :
    (xs.drop p).getD j d0 = xs.getD (p + j) d0 := by
  simp only [List.getD_eq_getElem?_getD, List.getElem?_drop]

theorem get_nat (s : LinkedPointerList) (k : Nat) (hk : k < 256) :
    get s (k : Int) = (payloads s.root).getD k NULL := by
  rw [get_eq_getD, toUChar_ofNat k hk]

theorem get_mk_ofList (sz : Nat) (ys : List Ptr) (k : Nat) (hk : k < 256) :
    get ⟨sz, ofList ys⟩ (k : Int) = ys.getD k NULL := by
  rw [get_nat _ k hk, payloads_ofList]

theorem wellFormed_mk_ofList (m : Nat) (ys : List Ptr) (h : ys.length = m) :
    WellFormed ⟨m, ofList ys⟩ m :=
  ⟨by rw [chainLength_ofList, h], rfl⟩

theorem addAll_eq (xs : List Ptr) (s : LinkedPointerList) (n : Nat) (h : WellFormed s n)
    (hn : n ≤ 255) (hx : n + xs.length ≤ 256) :
    addAll s xs = some ⟨(n + xs.length) % 256, ofList (payloads s.root ++ xs)⟩ := by
  induction xs generalizing s n with
  | nil =>
    obtain ⟨sz, root⟩ := s
    have hs : sz = n := h.2
    subst hs
    simp [addAll, ofList_payloads, Nat.mod_eq_of_lt (show sz < 256 by omega)]
  | cons x xs ih =>
    rw [addAll, add_eq s n x h hn]
    have hlen : (payloads s.root).length = n := by rw [length_payloads, h.1]
    by_cases h255 : n < 255
    · have hw : WellFormed ⟨incr n, ofList (payloads s.root ++ [x])⟩ (n + 1) := by
        rw [incr_of_lt n h255]
        exact wellFormed_mk_ofList _ _ (by simp [hlen])
      simp only []
      rw [ih _ (n + 1) hw (by omega) (by simp at hx; omega), payloads_ofList]
      simp [Nat.add_assoc, Nat.add_comm 1]
    · have hxs : xs = [] := by
        cases xs with
        | nil => rfl
        | cons y ys => simp at hx; omega
      have hn255 : n = 255 := by omega
      subst hxs
      subst hn255
      simp [addAll, incr]

/-! ## Claims -/

/-- C1 (as amended): for every sequence of at most 255 pointers, constructing the
empty list and calling `add` on each pointer in order succeeds, after which
`size()` returns the number of pointers added and `get(i)` returns the `i`-th
pointer added. -/
theorem add_sequence_size_get (xs : List Ptr) (hk : xs.length ≤ 255) :
    ∃ s, addAll empty xs = some s ∧ size s = (xs.length : Int) ∧
      ∀ (i : Nat) (hi : i < xs.length), get s (i : Int) = xs.get ⟨i, hi⟩ := by
  have hw : WellFormed empty 0 := ⟨rfl, rfl⟩
  have h := addAll_eq xs empty 0 hw (by omega) (by omega)
  refine ⟨_, h, ?_, ?_⟩
  · simp only [size, Nat.zero_add]
    rw [Nat.mod_eq_of_lt (by omega)]
  · intro i hi
    rw [get_mk_ofList _ _ i (by omega)]
    simp [empty, payloads, List.getD_eq_getElem?_getD, List.getElem?_eq_getElem hi]

/-- C1 at a list of 20 pointers: the preconditions hold and the conclusion follows. -/
theorem add_sequence_size_get_witness :
    (List.range' 1 20).length ≤ 255 ∧
    ∃ s, addAll empty (List.range' 1 20) = some s ∧
      size s = ((List.range' 1 20).length : Int) ∧
      ∀ (i : Nat) (hi : i < (List.range' 1 20).length),
        get s (i : Int) = (List.range' 1 20).get ⟨i, hi⟩ :=
  ⟨by decide, add_sequence_size_get (List.range' 1 20) (by decide)⟩

/-- C1 fails as stated at 256 pointers: after 256 calls of `add` on the empty list
`size()` returns 0, not 256. -/
theorem add_sequence_256_size_zero :
    ∃ s, addAll empty (List.range' 1 256) = some s ∧ size s = 0 ∧
      size s ≠ ((List.range' 1 256).length : Int) := by
  have hw : WellFormed empty 0 := ⟨rfl, rfl⟩
  have h := addAll_eq (List.range' 1 256) empty 0 hw (by omega) (by simp)
  refine ⟨_, h, ?_, ?_⟩ <;> simp [size]

/-- C2 at a failing input: on the well-formed one-entry list holding pointer 7,
`get(256)` returns 7 although position 256 does not exist, and so does `get(-256)`. -/
theorem get_256_returns_first :
    WellFormed ⟨1, .node 7 .null⟩ 1 ∧ get ⟨1, .node 7 .null⟩ 256 = 7 ∧
      get ⟨1, .node 7 .null⟩ (-256) = 7 ∧ (7 : Ptr) ≠ NULL := by
  decide

/-- C3: on a well-formed list of `n < 255` entries `add(x)` returns true; afterwards
`size()` is `n + 1`, `get(n)` is `x`, every `get(i)` with `0 <= i < n` is
unchanged, the list is again well-formed, and for `n = 0` the new node is `root`. -/
theorem add_appends (s : LinkedPointerList) (n : Nat) (x : Ptr) (h : WellFormed s n)
    (hn : n < 255) :
    ∃ s', add s x = some (s', true) ∧ WellFormed s' (n + 1) ∧
      size s' = (n : Int) + 1 ∧ get s' (n : Int) = x ∧
      (∀ i : Int, 0 ≤ i → i < (n : Int) → get s' i = get s i) ∧
      (n = 0 → s'.root = .node x .null) := by
  have hlen : (payloads s.root).length = n := by rw [length_payloads, h.1]
  refine ⟨_, add_eq s n x h (by omega), ?_, ?_, ?_, ?_, ?_⟩
  · rw [incr_of_lt n hn]
    exact wellFormed_mk_ofList _ _ (by simp [hlen])
  · simp [size, incr_of_lt n hn]
  · rw [get_mk_ofList _ _ n (by omega)]
    simp [List.getD_eq_getElem?_getD, ← hlen]
  · intro i h0 h1
    obtain ⟨k, rfl⟩ : ∃ k : Nat, i = (k : Int) := ⟨i.toNat, by omega⟩
    have hk : k < n := by omega
    rw [get_mk_ofList _ _ k (by omega), get_nat s k (by omega)]
    have := getD_take_append_lt (payloads s.root) [x] n k NULL hk (by omega)
    rwa [List.take_of_length_le (by omega)] at this
  · intro hn0
    subst hn0
    simp [payloads_eq_nil h.1, ofList]

/-- C3 at the list holding 5 and 6, adding 7. -/
theorem add_appends_witness :
    WellFormed ⟨2, ofList [5, 6]⟩ 2 ∧ 2 < 255 ∧
    ∃ s', add ⟨2, ofList [5, 6]⟩ 7 = some (s', true) ∧ WellFormed s' (2 + 1) ∧
      size s' = ((2 : Nat) : Int) + 1 ∧ get s' ((2 : Nat) : Int) = 7 ∧
      (∀ i : Int, 0 ≤ i → i < ((2 : Nat) : Int) → get s' i = get ⟨2, ofList [5, 6]⟩ i) ∧
      (2 = 0 → s'.root = .node 7 .null) :=
  ⟨by decide, by decide, add_appends ⟨2, ofList [5, 6]⟩ 2 7 (by decide) (by decide)⟩

/-- C4: on a well-formed list of `n < 255` entries and for every `index >= 0`,
`add(index, x)` returns true; afterwards `size()` is `n + 1`, `x` is at position
`p = min(index, n)`, the entries before `p` keep their positions and the entries
from `p` on move up by one.  For `index >= n` the call is `add(x)` and for
`index == 0` it is `unshift(x)`. -/
theorem addAt_inserts (s : LinkedPointerList) (n : Nat) (index : Int) (x : Ptr)
    (h : WellFormed s n) (hn : n < 255) (hi : 0 ≤ index) :
    ∃ s', addAt s index x = some (s', true) ∧ WellFormed s' (n + 1) ∧
      size s' = (n : Int) + 1 ∧ get s' (min index (n : Int)) = x ∧
      (∀ j : Int, 0 ≤ j → j < min index (n : Int) → get s' j = get s j) ∧
      (∀ j : Int, min index (n : Int) ≤ j → j < (n : Int) → get s' (j + 1) = get s j) ∧
      ((n : Int) ≤ index → addAt s index x = add s x) ∧
      (index = 0 → addAt s index x = unshift s x) := by
  have hlen : (payloads s.root).length = n := by rw [length_payloads, h.1]
  have hs := h.2
  obtain ⟨p, hp⟩ : ∃ p : Nat, p = min index.toNat n := ⟨_, rfl⟩
  have hpi : min index (n : Int) = (p : Int) := by omega
  have hpn : p ≤ n := by omega
  rw [hpi]
  refine ⟨_, addAt_eq s n index x h (by omega) hi, ?_, ?_, ?_, ?_, ?_, ?_, ?_⟩
  · rw [incr_of_lt n hn]
    exact wellFormed_mk_ofList _ _ (by simp [hlen]; omega)
  · simp [size, incr_of_lt n hn]
  · rw [get_mk_ofList _ _ p (by omega), ← hp]
    have := getD_take_append_ge (payloads s.root) (x :: (payloads s.root).drop p) p 0 NULL
      (by omega)
    simpa using this
  · intro j h0 h1
    obtain ⟨k, rfl⟩ : ∃ k : Nat, j = (k : Int) := ⟨j.toNat, by omega⟩
    rw [get_mk_ofList _ _ k (by omega), get_nat s k (by omega), ← hp]
    exact getD_take_append_lt _ _ p k NULL (by omega) (by omega)
  · intro j h0 h1
    obtain ⟨k, rfl⟩ : ∃ k : Nat, j = ((p + k : Nat) : Int) := ⟨j.toNat - p, by omega⟩
    have e : (((p + k : Nat) : Int) + 1) = ((p + (k + 1) : Nat) : Int) := by omega
    rw [e, get_mk_ofList _ _ (p + (k + 1)) (by omega), get_nat s (p + k) (by omega), ← hp,
      getD_take_append_ge _ _ p (k + 1) NULL (by omega)]
    simp only [List.getD_cons_succ]
    exact getD_drop _ p k NULL
  · intro hge
    rw [addAt, if_pos (by omega)]
  · intro h0
    subst h0
    by_cases hz : s._size = 0
    · have : (0 : Int) ≥ (s._size : Int) := by omega
      rw [addAt, if_pos this, unshift, if_pos hz]
    · have : ¬ (0 : Int) ≥ (s._size : Int) := by omega
      rw [addAt, if_neg this, if_pos rfl]

/-- C4 at the list holding 4, 5, 6, inserting 9 at index 1. -/
theorem addAt_inserts_witness :
    WellFormed ⟨3, ofList [4, 5, 6]⟩ 3 ∧ 3 < 255 ∧ (0 : Int) ≤ 1 ∧
    ∃ s', addAt ⟨3, ofList [4, 5, 6]⟩ 1 9 = some (s', true) ∧ WellFormed s' (3 + 1) ∧
      size s' = ((3 : Nat) : Int) + 1 ∧ get s' (min 1 ((3 : Nat) : Int)) = 9 ∧
      (∀ j : Int, 0 ≤ j → j < min 1 ((3 : Nat) : Int) →
        get s' j = get ⟨3, ofList [4, 5, 6]⟩ j) ∧
      (∀ j : Int, min 1 ((3 : Nat) : Int) ≤ j → j < ((3 : Nat) : Int) →
        get s' (j + 1) = get ⟨3, ofList [4, 5, 6]⟩ j) ∧
      (((3 : Nat) : Int) ≤ 1 →
        addAt ⟨3, ofList [4, 5, 6]⟩ 1 9 = add ⟨3, ofList [4, 5, 6]⟩ 9) ∧
      ((1 : Int) = 0 → addAt ⟨3, ofList [4, 5, 6]⟩ 1 9 = unshift ⟨3, ofList [4, 5, 6]⟩ 9) :=
  ⟨by decide, by decide, by decide,
    addAt_inserts ⟨3, ofList [4, 5, 6]⟩ 3 1 9 (by decide) (by decide) (by decide)⟩

/-- C5: on a well-formed list of `n <= 255` entries and for `0 <= index < n`,
`remove(index)` returns the payload that was at `index`; afterwards `size()` is
`n - 1`, every `get(j)` with `j < index` is unchanged and `get(j)` is the previous
`get(j + 1)` for `index <= j < n - 1`.  For `index == 0` the call is `shift()` and
for `index == n - 1 != 0` it is `pop()`. -/
theorem remove_in_range (s : LinkedPointerList) (n : Nat) (index : Int)
    (h : WellFormed s n) (hn : n ≤ 255) (h0 : 0 ≤ index) (h1 : index < (n : Int)) :
    ∃ s', remove s index = some (s', get s index) ∧ WellFormed s' (n - 1) ∧
      size s' = (n : Int) - 1 ∧
      (∀ j : Int, 0 ≤ j → j < index → get s' j = get s j) ∧
      (∀ j : Int, index ≤ j → j < (n : Int) - 1 → get s' j = get s (j + 1)) ∧
      (index = 0 → remove s index = shift s) ∧
      (index ≠ 0 → index = (n : Int) - 1 → remove s index = pop s) := by
  have hlen : (payloads s.root).length = n := by rw [length_payloads, h.1]
  have hs := h.2
  obtain ⟨k, rfl⟩ : ∃ k : Nat, index = (k : Int) := ⟨index.toNat, by omega⟩
  have hk : k < n := by omega
  have hg : ¬ ((k : Int) < 0 ∨ (k : Int) ≥ (s._size : Int)) := by omega
  have hr := remove_eq s n k h hn hk
  rw [← get_nat s k (by omega)] at hr
  refine ⟨_, hr, ?_, ?_, ?_, ?_, ?_, ?_⟩
  · exact wellFormed_mk_ofList _ _ (by simp [hlen]; omega)
  · simp only [size]; omega
  · intro j hj0 hj1
    obtain ⟨i, rfl⟩ : ∃ i : Nat, j = (i : Int) := ⟨j.toNat, by omega⟩
    rw [get_mk_ofList _ _ i (by omega), get_nat s i (by omega)]
    exact getD_take_append_lt _ _ k i NULL (by omega) (by omega)
  · intro j hj0 hj1
    obtain ⟨i, rfl⟩ : ∃ i : Nat, j = ((k + i : Nat) : Int) := ⟨j.toNat - k, by omega⟩
    have e : (((k + i : Nat) : Int) + 1) = ((k + 1 + i : Nat) : Int) := by omega
    rw [e, get_mk_ofList _ _ (k + i) (by omega), get_nat s (k + 1 + i) (by omega),
      getD_take_append_ge _ _ k i NULL (by omega)]
    exact getD_drop _ (k + 1) i NULL
  · intro hz
    rw [remove, if_neg hg, if_pos hz]
  · intro hz hl
    rw [remove, if_neg hg, if_neg hz, if_pos (by omega)]

/-- C5 at the list holding 4, 5, 6, removing index 1. -/
theorem remove_in_range_witness :
    WellFormed ⟨3, ofList [4, 5, 6]⟩ 3 ∧ 3 ≤ 255 ∧ (0 : Int) ≤ 1 ∧
    (1 : Int) < ((3 : Nat) : Int) ∧
    ∃ s', remove ⟨3, ofList [4, 5, 6]⟩ 1 = some (s', get ⟨3, ofList [4, 5, 6]⟩ 1) ∧
      WellFormed s' (3 - 1) ∧ size s' = ((3 : Nat) : Int) - 1 ∧
      (∀ j : Int, 0 ≤ j → j < 1 → get s' j = get ⟨3, ofList [4, 5, 6]⟩ j) ∧
      (∀ j : Int, 1 ≤ j → j < ((3 : Nat) : Int) - 1 →
        get s' j = get ⟨3, ofList [4, 5, 6]⟩ (j + 1)) ∧
      ((1 : Int) = 0 → remove ⟨3, ofList [4, 5, 6]⟩ 1 = shift ⟨3, ofList [4, 5, 6]⟩) ∧
      ((1 : Int) ≠ 0 → (1 : Int) = ((3 : Nat) : Int) - 1 →
        remove ⟨3, ofList [4, 5, 6]⟩ 1 = pop ⟨3, ofList [4, 5, 6]⟩) :=
  ⟨by decide, by decide, by decide, by decide,
    remove_in_range ⟨3, ofList [4, 5, 6]⟩ 3 1 (by decide) (by decide) (by decide)
      (by decide)⟩

/-- C6: `remove(index)` with `index < 0` or `index >= size()` returns NULL and
leaves the list as it was, so `size()` and every `get(i)` are the same as before
the call.  This holds in every list state, in particular for every well-formed
list of `n <= 255` entries. -/
theorem remove_out_of_range (s : LinkedPointerList) (index : Int)
    (hi : index < 0 ∨ index ≥ size s) :
    ∃ s', remove s index = some (s', NULL) ∧ s' = s ∧ size s' = size s ∧
      ∀ i : Int, get s' i = get s i := by
  have hi' : index < 0 ∨ index ≥ (s._size : Int) := hi
  refine ⟨s, ?_, rfl, rfl, fun _ => rfl⟩
  rw [remove, if_pos hi']

/-- C6 at the well-formed list holding 4, 5, 6, removing index 3. -/
theorem remove_out_of_range_witness :
    WellFormed ⟨3, ofList [4, 5, 6]⟩ 3 ∧
    ((3 : Int) < 0 ∨ (3 : Int) ≥ size ⟨3, ofList [4, 5, 6]⟩) ∧
    ∃ s', remove ⟨3, ofList [4, 5, 6]⟩ 3 = some (s', NULL) ∧
      s' = ⟨3, ofList [4, 5, 6]⟩ ∧ size s' = size ⟨3, ofList [4, 5, 6]⟩ ∧
      ∀ i : Int, get s' i = get ⟨3, ofList [4, 5, 6]⟩ i :=
  ⟨by decide, by decide, remove_out_of_range ⟨3, ofList [4, 5, 6]⟩ 3 (by decide)⟩

/-- C7: on a well-formed list of `n` entries with `1 <= n <= 255`, `pop()` returns
the payload at position `n - 1`; afterwards `size()` is `n - 1` and every `get(i)`
with `0 <= i < n - 1` is unchanged.  On the well-formed empty list `pop()` returns
NULL and leaves the state unchanged. -/
theorem pop_removes_last (s : LinkedPointerList) (n : Nat) (h : WellFormed s n)
    (hn : n ≤ 255) :
    (1 ≤ n → ∃ s', pop s = some (s', get s ((n : Int) - 1)) ∧ WellFormed s' (n - 1) ∧
      size s' = (n : Int) - 1 ∧
      ∀ i : Int, 0 ≤ i → i < (n : Int) - 1 → get s' i = get s i) ∧
    (n = 0 → pop s = some (s, NULL)) := by
  have hlen : (payloads s.root).length = n := by rw [length_payloads, h.1]
  constructor
  · intro h1
    have hr := pop_eq s n h h1 hn
    rw [← get_nat s (n - 1) (by omega)] at hr
    have e : ((n - 1 : Nat) : Int) = (n : Int) - 1 := by omega
    rw [e] at hr
    refine ⟨_, hr, ?_, ?_, ?_⟩
    · exact wellFormed_mk_ofList _ _ (by simp [hlen])
    · simp only [size]; omega
    · intro i hi0 hi1
      obtain ⟨k, rfl⟩ : ∃ k : Nat, i = (k : Int) := ⟨i.toNat, by omega⟩
      rw [get_mk_ofList _ _ k (by omega), get_nat s k (by omega)]
      have := getD_take_append_lt (payloads s.root) [] (n - 1) k NULL (by omega) (by omega)
      simpa using this
  · intro h0
    subst h0
    exact pop_empty s h

/-- C7 at the list holding 4, 5, 6. -/
theorem pop_removes_last_witness :
    WellFormed ⟨3, ofList [4, 5, 6]⟩ 3 ∧ 3 ≤ 255 ∧
    ((1 ≤ 3 → ∃ s', pop ⟨3, ofList [4, 5, 6]⟩ =
        some (s', get ⟨3, ofList [4, 5, 6]⟩ (((3 : Nat) : Int) - 1)) ∧
      WellFormed s' (3 - 1) ∧ size s' = ((3 : Nat) : Int) - 1 ∧
      ∀ i : Int, 0 ≤ i → i < ((3 : Nat) : Int) - 1 →
        get s' i = get ⟨3, ofList [4, 5, 6]⟩ i) ∧
    (3 = 0 → pop ⟨3, ofList [4, 5, 6]⟩ = some (⟨3, ofList [4, 5, 6]⟩, NULL))) :=
  ⟨by decide, by decide, pop_removes_last ⟨3, ofList [4, 5, 6]⟩ 3 (by decide) (by decide)⟩

/-- C8: on a well-formed list of `n` entries with `1 <= n <= 255`, `shift()` returns
the payload at position 0; afterwards `size()` is `n - 1` and `get(i)` is the
previous `get(i + 1)` for every `0 <= i < n - 1`.  On the well-formed empty list
`shift()` returns NULL and leaves the state unchanged. -/
theorem shift_removes_first (s : LinkedPointerList) (n : Nat) (h : WellFormed s n)
    (hn : n ≤ 255) :
    (1 ≤ n → ∃ s', shift s = some (s', get s 0) ∧ WellFormed s' (n - 1) ∧
      size s' = (n : Int) - 1 ∧
      ∀ i : Int, 0 ≤ i → i < (n : Int) - 1 → get s' i = get s (i + 1)) ∧
    (n = 0 → shift s = some (s, NULL)) := by
  have hlen : (payloads s.root).length = n := by rw [length_payloads, h.1]
  constructor
  · intro h1
    have hr := shift_eq s n h h1 hn
    rw [← get_nat s 0 (by omega)] at hr
    refine ⟨_, hr, ?_, ?_, ?_⟩
    · exact wellFormed_mk_ofList _ _ (by simp [hlen])
    · simp only [size]; omega
    · intro i hi0 hi1
      obtain ⟨k, rfl⟩ : ∃ k : Nat, i = (k : Int) := ⟨i.toNat, by omega⟩
      have e : ((k : Int) + 1) = ((1 + k : Nat) : Int) := by omega
      rw [e, get_mk_ofList _ _ k (by omega), get_nat s (1 + k) (by omega)]
      exact getD_drop _ 1 k NULL
  · intro h0
    subst h0
    exact shift_empty s h

/-- C8 at the list holding 4, 5, 6. -/
theorem shift_removes_first_witness :
    WellFormed ⟨3, ofList [4, 5, 6]⟩ 3 ∧ 3 ≤ 255 ∧
    ((1 ≤ 3 → ∃ s', shift ⟨3, ofList [4, 5, 6]⟩ =
        some (s', get ⟨3, ofList [4, 5, 6]⟩ 0) ∧
      WellFormed s' (3 - 1) ∧ size s' = ((3 : Nat) : Int) - 1 ∧
      ∀ i : Int, 0 ≤ i → i < ((3 : Nat) : Int) - 1 →
        get s' i = get ⟨3, ofList [4, 5, 6]⟩ (i + 1)) ∧
    (3 = 0 → shift ⟨3, ofList [4, 5, 6]⟩ = some (⟨3, ofList [4, 5, 6]⟩, NULL))) :=
  ⟨by decide, by decide,
    shift_removes_first ⟨3, ofList [4, 5, 6]⟩ 3 (by decide) (by decide)⟩

/-- C9: on a well-formed list of `n < 255` entries, `unshift(x)` returns true and a
following `shift()` returns `x` and leaves the list state, the chain and `_size`,
exactly as it was before the `unshift`.  On the empty list `unshift` is `add` and
the following `shift` is `pop`. -/
theorem unshift_then_shift (s : LinkedPointerList) (n : Nat) (x : Ptr)
    (h : WellFormed s n) (hn : n < 255) :
    ∃ s1, unshift s x = some (s1, true) ∧ shift s1 = some (s, x) ∧
      (n = 0 → unshift s x = add s x ∧ shift s1 = pop s1) := by
  have hlen : (payloads s.root).length = n := by rw [length_payloads, h.1]
  have hw : WellFormed ⟨incr n, ofList (x :: payloads s.root)⟩ (n + 1) := by
    rw [incr_of_lt n hn]
    exact wellFormed_mk_ofList _ _ (by simp [hlen])
  refine ⟨_, unshift_eq s n x h (by omega), ?_, ?_⟩
  · rw [shift_eq _ (n + 1) hw (by omega) (by omega)]
    obtain ⟨sz, root⟩ := s
    have hs : sz = n := h.2
    subst hs
    simp [payloads_ofList, ofList_payloads]
  · intro h0
    subst h0
    have hs : s._size = 0 := h.2
    refine ⟨by rw [unshift, if_pos hs], ?_⟩
    rw [shift, if_neg (by simp [incr]), if_neg (by simp [incr])]

/-- C9 at the list holding 5 and 6, with the pointer 4. -/
theorem unshift_then_shift_witness :
    WellFormed ⟨2, ofList [5, 6]⟩ 2 ∧ 2 < 255 ∧
    ∃ s1, unshift ⟨2, ofList [5, 6]⟩ 4 = some (s1, true) ∧
      shift s1 = some (⟨2, ofList [5, 6]⟩, 4) ∧
      (2 = 0 → unshift ⟨2, ofList [5, 6]⟩ 4 = add ⟨2, ofList [5, 6]⟩ 4 ∧
        shift s1 = pop s1) :=
  ⟨by decide, by decide, unshift_then_shift ⟨2, ofList [5, 6]⟩ 2 4 (by decide) (by decide)⟩

/-- C10: on a well-formed list of `n <= 255` entries and for `0 <= index < n`,
`set(index, x)` returns true; afterwards `get(index)` is `x`, `size()` is still
`n`, and `get(j)` is unchanged for every `j != index` with `0 <= j < n`. -/
theorem set_in_range (s : LinkedPointerList) (n : Nat) (index : Int) (x : Ptr)
    (h : WellFormed s n) (hn : n ≤ 255) (h0 : 0 ≤ index) (h1 : index < (n : Int)) :
    ∃ s', set s index x = some (s', true) ∧ WellFormed s' n ∧ get s' index = x ∧
      size s' = (n : Int) ∧
      ∀ j : Int, 0 ≤ j → j < (n : Int) → j ≠ index → get s' j = get s j := by
  have hlen : (payloads s.root).length = n := by rw [length_payloads, h.1]
  obtain ⟨k, rfl⟩ : ∃ k : Nat, index = (k : Int) := ⟨index.toNat, by omega⟩
  have hk : k < n := by omega
  refine ⟨_, set_eq s n k x h hn hk, ?_, ?_, rfl, ?_⟩
  · exact wellFormed_mk_ofList _ _ (by simp [hlen]; omega)
  · rw [get_mk_ofList _ _ k (by omega)]
    have := getD_take_append_ge (payloads s.root) (x :: (payloads s.root).drop (k + 1)) k 0
      NULL (by omega)
    simpa using this
  · intro j hj0 hj1 hne
    obtain ⟨i, rfl⟩ : ∃ i : Nat, j = (i : Int) := ⟨j.toNat, by omega⟩
    rw [get_mk_ofList _ _ i (by omega), get_nat s i (by omega)]
    by_cases hlt : i < k
    · exact getD_take_append_lt _ _ k i NULL hlt (by omega)
    · obtain ⟨m, rfl⟩ : ∃ m : Nat, i = k + (m + 1) := ⟨i - k - 1, by omega⟩
      rw [getD_take_append_ge _ _ k (m + 1) NULL (by omega)]
      simp only [List.getD_cons_succ]
      rw [getD_drop]
      congr 1
      omega

/-- C10 at the list holding 4, 5, 6, setting index 2 to 8. -/
theorem set_in_range_witness :
    WellFormed ⟨3, ofList [4, 5, 6]⟩ 3 ∧ 3 ≤ 255 ∧ (0 : Int) ≤ 2 ∧
    (2 : Int) < ((3 : Nat) : Int) ∧
    ∃ s', set ⟨3, ofList [4, 5, 6]⟩ 2 8 = some (s', true) ∧ WellFormed s' 3 ∧
      get s' 2 = 8 ∧ size s' = ((3 : Nat) : Int) ∧
      ∀ j : Int, 0 ≤ j → j < ((3 : Nat) : Int) → j ≠ 2 →
        get s' j = get ⟨3, ofList [4, 5, 6]⟩ j :=
  ⟨by decide, by decide, by decide, by decide,
    set_in_range ⟨3, ofList [4, 5, 6]⟩ 3 2 8 (by decide) (by decide) (by decide)
      (by decide)⟩

/-- C11: on a well-formed list of `n <= 255` entries, for every `index` and `x`,
`set(index, x)` returns a flag, and the flag is false exactly when `index < 0` or
`index >= size()`; whenever it is false the list is as it was, so `size()` and
every `get(i)` are unchanged. -/
theorem set_false_iff_out_of_range (s : LinkedPointerList) (n : Nat) (index : Int)
    (x : Ptr) (h : WellFormed s n) (hn : n ≤ 255) :
    ∃ s' b, set s index x = some (s', b) ∧
      (b = false ↔ (index < 0 ∨ index ≥ size s)) ∧
      (b = false → s' = s ∧ size s' = size s ∧ ∀ i : Int, get s' i = get s i) := by
  have hs : s._size = n := h.2
  by_cases hi : index < 0 ∨ index ≥ (s._size : Int)
  · refine ⟨s, false, by rw [set, if_pos hi], ?_, ?_⟩
    · simp only [size, true_iff]
      exact hi
    · intro _
      exact ⟨rfl, rfl, fun _ => rfl⟩
  · obtain ⟨k, rfl⟩ : ∃ k : Nat, index = (k : Int) := ⟨index.toNat, by omega⟩
    have hk : k < n := by omega
    refine ⟨_, true, set_eq s n k x h hn hk, ?_, ?_⟩
    · simp only [size, Bool.true_eq_false, false_iff]
      exact hi
    · intro hb
      simp at hb

/-- C11 at the list holding 4, 5, 6, setting index 3 (out of range) to 8. -/
theorem set_false_iff_out_of_range_witness :
    WellFormed ⟨3, ofList [4, 5, 6]⟩ 3 ∧ 3 ≤ 255 ∧
    ∃ s' b, set ⟨3, ofList [4, 5, 6]⟩ 3 8 = some (s', b) ∧
      (b = false ↔ ((3 : Int) < 0 ∨ (3 : Int) ≥ size ⟨3, ofList [4, 5, 6]⟩)) ∧
      (b = false → s' = ⟨3, ofList [4, 5, 6]⟩ ∧ size s' = size ⟨3, ofList [4, 5, 6]⟩ ∧
        ∀ i : Int, get s' i = get ⟨3, ofList [4, 5, 6]⟩ i) :=
  ⟨by decide, by decide,
    set_false_iff_out_of_range ⟨3, ofList [4, 5, 6]⟩ 3 3 8 (by decide) (by decide)⟩

theorem clearLoop_eq_null (c : NodePtr) : clearLoop c = .null := by
  induction c with
  | null => rfl
  | node d nx ih => simpa [clearLoop] using ih

/-- C12: in every list state, whatever the chain and the value of `_size`,
`clear()` leaves `root == NULL` and `_size == 0`, so that afterwards `size()` is 0
and `get(0)` returns NULL; on the empty list `clear()` changes nothing. -/
theorem clear_resets (s : LinkedPointerList) :
    (clear s).root = .null ∧ (clear s)._size = 0 ∧ size (clear s) = 0 ∧
      get (clear s) 0 = NULL ∧ clear s = empty ∧ clear empty = empty := by
  have hc : clear s = empty := by
    simp [clear, empty, clearLoop_eq_null]
  rw [hc]
  decide

theorem eq_singleton_of_payloads (s : LinkedPointerList) (x : Ptr) (h : WellFormed s 1)
    (hx : payloads s.root = [x]) : s = ⟨1, .node x .null⟩ := by
  obtain ⟨sz, root⟩ := s
  have hs : sz = 1 := h.2
  have hr : root = ofList [x] := eq_ofList_of_payloads hx
  subst hs
  subst hr
  rfl

/-- C14: on a well-formed single-entry list holding `x`, each of `pop()`, `shift()`
and `remove(0)` returns `x` and leaves the empty representation, `root == NULL`
and `_size == 0`, the state of a freshly constructed list, in which `size()` is 0
and `get(0)` returns NULL. -/
theorem single_entry_removal_empties (s : LinkedPointerList) (x : Ptr)
    (h : WellFormed s 1) (hx : payloads s.root = [x]) :
    pop s = some (empty, x) ∧ shift s = some (empty, x) ∧ remove s 0 = some (empty, x) ∧
      empty.root = .null ∧ empty._size = 0 ∧ size empty = 0 ∧ get empty 0 = NULL := by
  rw [eq_singleton_of_payloads s x h hx]
  refine ⟨?_, ?_, ?_, rfl, rfl, rfl, rfl⟩
  · simp [pop, empty]
  · simp [shift, pop, empty]
  · simp [remove, shift, pop, empty]

/-- C14 at the list holding the single pointer 7. -/
theorem single_entry_removal_empties_witness :
    WellFormed ⟨1, .node 7 .null⟩ 1 ∧ payloads (LinkedPointerList.mk 1 (.node 7 .null)).root = [7] ∧
    pop ⟨1, .node 7 .null⟩ = some (empty, 7) ∧ shift ⟨1, .node 7 .null⟩ = some (empty, 7) ∧
      remove ⟨1, .node 7 .null⟩ 0 = some (empty, 7) ∧
      empty.root = .null ∧ empty._size = 0 ∧ size empty = 0 ∧ get empty 0 = NULL :=
  ⟨by decide, by decide,
    single_entry_removal_empties ⟨1, .node 7 .null⟩ 7 (by decide) (by decide)⟩

/-- C15: on a well-formed list of `n <= 254` entries, `add(-1, x)` passes neither
the `index >= _size` test nor the `index == 0` test, its predecessor lookup
`getNode(index - 1)` returns NULL, and the splice then dereferences that null
pointer: the call has no defined result and returns no failure flag. -/
theorem addAt_minus_one_null_deref (s : LinkedPointerList) (n : Nat) (x : Ptr)
    (h : WellFormed s n) (hn : n ≤ 254) :
    ¬ ((-1 : Int) ≥ (s._size : Int)) ∧ (-1 : Int) ≠ 0 ∧
      getNode s (toUChar ((-1 : Int) - 1)) = .null ∧ addAt s (-1) x = none := by
  have hl : chainLength s.root = n := h.1
  have h1 : ¬ ((-1 : Int) ≥ (s._size : Int)) := by omega
  have hu : toUChar ((-1 : Int) - 1) = 254 := by decide
  have hg : getNode s (toUChar ((-1 : Int) - 1)) = .null := by
    rw [hu, getNode_eq_advance]
    exact advance_of_length_le 254 s.root (by omega)
  refine ⟨h1, by decide, hg, ?_⟩
  rw [addAt, if_neg h1, if_neg (by decide)]
  simp only [hg]

/-- C15 at the list holding 4, 5, 6. -/
theorem addAt_minus_one_null_deref_witness :
    WellFormed ⟨3, ofList [4, 5, 6]⟩ 3 ∧ 3 ≤ 254 ∧
    ¬ ((-1 : Int) ≥ ((LinkedPointerList.mk 3 (ofList [4, 5, 6]))._size : Int)) ∧
      (-1 : Int) ≠ 0 ∧
      getNode ⟨3, ofList [4, 5, 6]⟩ (toUChar ((-1 : Int) - 1)) = .null ∧
      addAt ⟨3, ofList [4, 5, 6]⟩ (-1) 9 = none :=
  ⟨by decide, by decide,
    addAt_minus_one_null_deref ⟨3, ofList [4, 5, 6]⟩ 3 9 (by decide) (by decide)⟩

/-- C16: for every chain rooted at `root`, with `n` nodes, and every position `i`,
in particular every `i` in `0..255`: `getNode(i)` is the node reached from `root`
after `i` steps of `next`; for `i < n` that is a node, carrying the payload at
position `i`, and for `i >= n` the result is NULL.  When `_size == n`, the result
is NULL exactly when `i >= _size`. -/
theorem getNode_finds_position (s : LinkedPointerList) (i : Nat) :
    getNode s i = advance i s.root ∧
      (i < chainLength s.root →
        ∃ d nx, getNode s i = .node d nx ∧ (payloads s.root)[i]? = some d ∧
          payloads nx = (payloads s.root).drop (i + 1)) ∧
      (chainLength s.root ≤ i → getNode s i = .null) ∧
      (s._size = chainLength s.root → (getNode s i = .null ↔ s._size ≤ i)) := by
  have hlt : i < chainLength s.root →
      ∃ d nx, getNode s i = .node d nx ∧ (payloads s.root)[i]? = some d ∧
        payloads nx = (payloads s.root).drop (i + 1) := by
    intro hi
    obtain ⟨d, nx, e1, e2⟩ := advance_drop i s.root hi
    obtain ⟨_, t2, t3⟩ := drop_split _ _ _ _ e2
    refine ⟨d, nx, by rw [getNode_eq_advance, e1], ?_, t2.symm⟩
    have hlen : i < (payloads s.root).length := by rw [length_payloads]; exact hi
    rw [List.getD_eq_getElem?_getD, List.getElem?_eq_getElem hlen] at t3
    rw [List.getElem?_eq_getElem hlen]
    simpa using t3
  have hge : chainLength s.root ≤ i → getNode s i = .null := by
    intro hi
    rw [getNode_eq_advance]
    exact advance_of_length_le i s.root hi
  refine ⟨getNode_eq_advance s i, hlt, hge, ?_⟩
  intro hs
  constructor
  · intro hnull
    by_contra hc
    obtain ⟨d, nx, e, _⟩ := hlt (by omega)
    rw [e] at hnull
    cases hnull
  · intro hi
    exact hge (by omega)

/-- C17: on a well-formed list of `n <= 255` entries, `get(index)` depends only on
`index mod 256`: it returns the payload at position `index mod 256` when that
position is below `n` and NULL otherwise.  So `get(index + 256) == get(index)`, and
on a non-empty list `get(256)` returns the first entry. -/
theorem get_depends_on_index_mod_256 (s : LinkedPointerList) (n : Nat) (index : Int)
    (h : WellFormed s n) (hn : n ≤ 255) :
    get s index = get s (index % 256) ∧
      (index % 256 < (n : Int) →
        (payloads s.root)[(index % 256).toNat]? = some (get s index)) ∧
      ((n : Int) ≤ index % 256 → get s index = NULL) ∧
      get s (index + 256) = get s index ∧
      (1 ≤ n → get s 256 = get s 0 ∧ (payloads s.root)[0]? = some (get s 256)) := by
  have hlen : (payloads s.root).length = n := by rw [length_payloads, h.1]
  have key : ∀ j : Int, get s j = (payloads s.root).getD (j % 256).toNat NULL := by
    intro j
    rw [get_eq_getD]
    rfl
  have hlt : ∀ j : Int, j % 256 < (n : Int) →
      (payloads s.root)[(j % 256).toNat]? = some (get s j) := by
    intro j hj
    have hk : (j % 256).toNat < (payloads s.root).length := by omega
    rw [key j, List.getD_eq_getElem?_getD, List.getElem?_eq_getElem hk]
    simp
  refine ⟨?_, hlt index, ?_, ?_, ?_⟩
  · rw [key index, key (index % 256)]
    congr 2
    omega
  · intro hge
    rw [key index, List.getD_eq_getElem?_getD, List.getElem?_eq_none (by omega)]
    rfl
  · rw [key index, key (index + 256)]
    congr 2
    omega
  · intro h1
    refine ⟨by rw [key 256, key 0]; rfl, ?_⟩
    have := hlt 256 (by omega)
    simpa using this

/-- C17 at the list holding 4, 5, 6 and the index 257. -/
theorem get_depends_on_index_mod_256_witness :
    WellFormed ⟨3, ofList [4, 5, 6]⟩ 3 ∧ 3 ≤ 255 ∧
    (get ⟨3, ofList [4, 5, 6]⟩ 257 = get ⟨3, ofList [4, 5, 6]⟩ (257 % 256) ∧
      ((257 : Int) % 256 < ((3 : Nat) : Int) →
        (payloads (LinkedPointerList.mk 3 (ofList [4, 5, 6])).root)[((257 : Int) % 256).toNat]? =
          some (get ⟨3, ofList [4, 5, 6]⟩ 257)) ∧
      (((3 : Nat) : Int) ≤ (257 : Int) % 256 → get ⟨3, ofList [4, 5, 6]⟩ 257 = NULL) ∧
      get ⟨3, ofList [4, 5, 6]⟩ (257 + 256) = get ⟨3, ofList [4, 5, 6]⟩ 257 ∧
      (1 ≤ 3 → get ⟨3, ofList [4, 5, 6]⟩ 256 = get ⟨3, ofList [4, 5, 6]⟩ 0 ∧
        (payloads (LinkedPointerList.mk 3 (ofList [4, 5, 6])).root)[0]? =
          some (get ⟨3, ofList [4, 5, 6]⟩ 256))) :=
  ⟨by decide, by decide,
    get_depends_on_index_mod_256 ⟨3, ofList [4, 5, 6]⟩ 3 257 (by decide) (by decide)⟩

theorem wrapped_state (ys : List Ptr) (h : ys.length = 256) :
    chainLength (LinkedPointerList.mk 0 (ofList ys)).root = 256 ∧
      (LinkedPointerList.mk 0 (ofList ys))._size = 0 ∧
      size ⟨0, ofList ys⟩ = 0 ∧
      (LinkedPointerList.mk 0 (ofList ys)).root ≠ .null ∧
      pop ⟨0, ofList ys⟩ = some (⟨0, ofList ys⟩, NULL) ∧
      shift ⟨0, ofList ys⟩ = some (⟨0, ofList ys⟩, NULL) := by
  refine ⟨by rw [chainLength_ofList, h], rfl, rfl, ?_, by simp [pop], by simp [shift]⟩
  cases ys with
  | nil => simp at h
  | cons y t => simp [ofList]

/-- C18: on a well-formed list of exactly 255 entries, `add(x)` and `unshift(x)` each
return true and leave a chain of 256 nodes with `_size == 0`, so `size()` returns 0
while `root` is not NULL; `pop()` and `shift()` in that state return NULL and leave
the state as it is. -/
theorem count_wraps_at_255 (s : LinkedPointerList) (x : Ptr) (h : WellFormed s 255) :
    ∃ s1 s2, add s x = some (s1, true) ∧ unshift s x = some (s2, true) ∧
      (chainLength s1.root = 256 ∧ s1._size = 0 ∧ size s1 = 0 ∧ s1.root ≠ .null ∧
        pop s1 = some (s1, NULL) ∧ shift s1 = some (s1, NULL)) ∧
      (chainLength s2.root = 256 ∧ s2._size = 0 ∧ size s2 = 0 ∧ s2.root ≠ .null ∧
        pop s2 = some (s2, NULL) ∧ shift s2 = some (s2, NULL)) := by
  have hlen : (payloads s.root).length = 255 := by rw [length_payloads, h.1]
  have hi : incr 255 = 0 := by decide
  have ha := add_eq s 255 x h (by omega)
  have hu := unshift_eq s 255 x h (by omega)
  rw [hi] at ha hu
  exact ⟨_, _, ha, hu, wrapped_state _ (by simp [hlen]), wrapped_state _ (by simp [hlen])⟩

/-- C18 at the list holding the pointer 7 in each of its 255 entries, adding 9. -/
theorem count_wraps_at_255_witness :
    WellFormed ⟨255, ofList (List.replicate 255 7)⟩ 255 ∧
    ∃ s1 s2, add ⟨255, ofList (List.replicate 255 7)⟩ 9 = some (s1, true) ∧
      unshift ⟨255, ofList (List.replicate 255 7)⟩ 9 = some (s2, true) ∧
      (chainLength s1.root = 256 ∧ s1._size = 0 ∧ size s1 = 0 ∧ s1.root ≠ .null ∧
        pop s1 = some (s1, NULL) ∧ shift s1 = some (s1, NULL)) ∧
      (chainLength s2.root = 256 ∧ s2._size = 0 ∧ size s2 = 0 ∧ s2.root ≠ .null ∧
        pop s2 = some (s2, NULL) ∧ shift s2 = some (s2, NULL)) :=
  ⟨wellFormed_mk_ofList 255 _ (List.length_replicate 255 7),
    count_wraps_at_255 ⟨255, ofList (List.replicate 255 7)⟩ 9
      (wellFormed_mk_ofList 255 _ (List.length_replicate 255 7))⟩

theorem addAt_negative_eq (s : LinkedPointerList) (n : Nat) (k : Nat) (x : Ptr)
    (h : WellFormed s n) (hn : n < 255) (hk : k < n) :
    addAt s ((k : Int) - 255) x =
      some (⟨n + 1, ofList ((payloads s.root).take (k + 1) ++
        x :: (payloads s.root).drop (k + 1))⟩, true) := by
  have hl := h.1
  have hs := h.2
  have h1 : ¬ ((k : Int) - 255 ≥ (s._size : Int)) := by omega
  have h2 : ¬ ((k : Int) - 255 = 0) := by omega
  have hu : toUChar ((k : Int) - 255 - 1) = k := by unfold toUChar; omega
  obtain ⟨d, nx, e1, e2⟩ := advance_drop k s.root (by omega)
  obtain ⟨t1, t2, _⟩ := drop_split _ _ _ _ e2
  rw [addAt, if_neg h1, if_neg h2]
  simp only [hu, getNode_eq_advance, e1, hs, incr_of_lt n hn]
  have hp : payloads (store s.root k (.node d (.node x nx))) =
      (payloads s.root).take (k + 1) ++ x :: (payloads s.root).drop (k + 1) := by
    rw [payloads_store _ _ _ (by omega), t1, t2]
    simp [payloads]
  rw [eq_ofList_of_payloads hp]

/-- C19: on a well-formed list of `n` entries with `1 <= n < 255`, for every `index`
with `-255 <= index <= -1` and `index + 255 < n`, `add(index, x)` returns true and
inserts `x` at position `index + 256`, directly after the node at position
`(index - 1) mod 256 = index + 255`; `size()` becomes `n + 1`, the entries before
the new one keep their positions and the others move up by one. -/
theorem addAt_negative_index_accepted (s : LinkedPointerList) (n : Nat) (index : Int)
    (x : Ptr) (h : WellFormed s n) (h1 : 1 ≤ n) (hn : n < 255) (hlo : -255 ≤ index)
    (hhi : index ≤ -1) (hb : index + 255 < (n : Int)) :
    ∃ s', addAt s index x = some (s', true) ∧ WellFormed s' (n + 1) ∧
      size s' = (n : Int) + 1 ∧ ((toUChar (index - 1) : Nat) : Int) = index + 255 ∧
      get s' (index + 256) = x ∧
      (∀ j : Int, 0 ≤ j → j < index + 256 → get s' j = get s j) ∧
      (∀ j : Int, index + 256 ≤ j → j < (n : Int) → get s' (j + 1) = get s j) := by
  have hlen : (payloads s.root).length = n := by rw [length_payloads, h.1]
  obtain ⟨k, rfl⟩ : ∃ k : Nat, index = (k : Int) - 255 := ⟨(index + 255).toNat, by omega⟩
  have hk : k < n := by omega
  have e256 : (k : Int) - 255 + 256 = ((k + 1 : Nat) : Int) := by omega
  rw [e256]
  refine ⟨_, addAt_negative_eq s n k x h hn hk, ?_, ?_, ?_, ?_, ?_, ?_⟩
  · exact wellFormed_mk_ofList _ _ (by simp [hlen]; omega)
  · simp [size]
  · unfold toUChar; omega
  · rw [get_mk_ofList _ _ (k + 1) (by omega)]
    have := getD_take_append_ge (payloads s.root) (x :: (payloads s.root).drop (k + 1))
      (k + 1) 0 NULL (by omega)
    simpa using this
  · intro j h0 hj
    obtain ⟨i, rfl⟩ : ∃ i : Nat, j = (i : Int) := ⟨j.toNat, by omega⟩
    rw [get_mk_ofList _ _ i (by omega), get_nat s i (by omega)]
    exact getD_take_append_lt _ _ (k + 1) i NULL (by omega) (by omega)
  · intro j h0 hj
    obtain ⟨i, rfl⟩ : ∃ i : Nat, j = ((k + 1 + i : Nat) : Int) :=
      ⟨j.toNat - (k + 1), by omega⟩
    have e : (((k + 1 + i : Nat) : Int) + 1) = ((k + 1 + (i + 1) : Nat) : Int) := by omega
    rw [e, get_mk_ofList _ _ (k + 1 + (i + 1)) (by omega),
      get_nat s (k + 1 + i) (by omega), getD_take_append_ge _ _ (k + 1) (i + 1) NULL (by omega)]
    simp only [List.getD_cons_succ]
    exact getD_drop _ (k + 1) i NULL

/-- C19 at the list holding 4, 5, 6 and the index -255: 9 is inserted at position 1. -/
theorem addAt_negative_index_accepted_witness :
    WellFormed ⟨3, ofList [4, 5, 6]⟩ 3 ∧ 1 ≤ 3 ∧ 3 < 255 ∧ (-255 : Int) ≤ -255 ∧
    (-255 : Int) ≤ -1 ∧ (-255 : Int) + 255 < ((3 : Nat) : Int) ∧
    addAt ⟨3, ofList [4, 5, 6]⟩ (-255) 9 = some (⟨4, ofList [4, 9, 5, 6]⟩, true) ∧
    ∃ s', addAt ⟨3, ofList [4, 5, 6]⟩ (-255) 9 = some (s', true) ∧ WellFormed s' (3 + 1) ∧
      size s' = ((3 : Nat) : Int) + 1 ∧
      ((toUChar ((-255 : Int) - 1) : Nat) : Int) = (-255 : Int) + 255 ∧
      get s' ((-255 : Int) + 256) = 9 ∧
      (∀ j : Int, 0 ≤ j → j < (-255 : Int) + 256 → get s' j = get ⟨3, ofList [4, 5, 6]⟩ j) ∧
      (∀ j : Int, (-255 : Int) + 256 ≤ j → j < ((3 : Nat) : Int) →
        get s' (j + 1) = get ⟨3, ofList [4, 5, 6]⟩ j) :=
  ⟨by decide, by decide, by decide, by decide, by decide, by decide, by decide,
    addAt_negative_index_accepted ⟨3, ofList [4, 5, 6]⟩ 3 (-255) 9 (by decide) (by decide)
      (by decide) (by decide) (by decide) (by decide)⟩

theorem invariant_of_wellFormed {s : LinkedPointerList} {m : Nat} (h : WellFormed s m)
    (hm : m ≤ 255) : Invariant s :=
  ⟨by rw [h.1, h.2], by rw [h.2]; exact hm⟩

theorem wellFormed_of_invariant {s : LinkedPointerList} (h : Invariant s) :
    WellFormed s s._size :=
  ⟨h.1, rfl⟩

theorem set_keeps_wellFormed (s : LinkedPointerList) (n : Nat) (index : Int) (x : Ptr)
    (h : WellFormed s n) (hn : n ≤ 255) :
    ∃ s' b, set s index x = some (s', b) ∧ WellFormed s' n := by
  have hs : s._size = n := h.2
  have hlen : (payloads s.root).length = n := by rw [length_payloads, h.1]
  by_cases hi : index < 0 ∨ index ≥ (s._size : Int)
  · exact ⟨s, false, by rw [set, if_pos hi], h⟩
  · obtain ⟨k, rfl⟩ : ∃ k : Nat, index = (k : Int) := ⟨index.toNat, by omega⟩
    have hk : k < n := by omega
    exact ⟨_, true, set_eq s n k x h hn hk,
      wellFormed_mk_ofList _ _ (by simp [hlen]; omega)⟩

theorem pop_keeps_wellFormed (s : LinkedPointerList) (n : Nat) (h : WellFormed s n)
    (hn : n ≤ 255) : ∃ s' r, pop s = some (s', r) ∧ WellFormed s' (n - 1) := by
  have hlen : (payloads s.root).length = n := by rw [length_payloads, h.1]
  by_cases h0 : n = 0
  · subst h0
    exact ⟨s, NULL, pop_empty s h, h⟩
  · exact ⟨_, _, pop_eq s n h (by omega) hn, wellFormed_mk_ofList _ _ (by simp [hlen])⟩

theorem shift_keeps_wellFormed (s : LinkedPointerList) (n : Nat) (h : WellFormed s n)
    (hn : n ≤ 255) : ∃ s' r, shift s = some (s', r) ∧ WellFormed s' (n - 1) := by
  have hlen : (payloads s.root).length = n := by rw [length_payloads, h.1]
  by_cases h0 : n = 0
  · subst h0
    exact ⟨s, NULL, shift_empty s h, h⟩
  · exact ⟨_, _, shift_eq s n h (by omega) hn, wellFormed_mk_ofList _ _ (by simp [hlen])⟩

theorem remove_keeps_wellFormed (s : LinkedPointerList) (n : Nat) (index : Int)
    (h : WellFormed s n) (hn : n ≤ 255) :
    ∃ s' r m, remove s index = some (s', r) ∧ WellFormed s' m ∧ m ≤ n := by
  have hs : s._size = n := h.2
  have hlen : (payloads s.root).length = n := by rw [length_payloads, h.1]
  by_cases hi : index < 0 ∨ index ≥ (s._size : Int)
  · exact ⟨s, NULL, n, by rw [remove, if_pos hi], h, Nat.le_refl n⟩
  · obtain ⟨k, rfl⟩ : ∃ k : Nat, index = (k : Int) := ⟨index.toNat, by omega⟩
    have hk : k < n := by omega
    exact ⟨_, _, n - 1, remove_eq s n k h hn hk,
      wellFormed_mk_ofList _ _ (by simp [hlen]; omega), by omega⟩

theorem perform_keeps_invariant (s : LinkedPointerList) (c : Call) (h : Invariant s)
    (ha : admitted s c = true) : ∃ s', perform s c = some s' ∧ Invariant s' := by
  have hw := wellFormed_of_invariant h
  have hn : s._size ≤ 255 := h.2
  have hlen : (payloads s.root).length = s._size := by rw [length_payloads, h.1]
  cases c with
  | size => exact ⟨s, rfl, h⟩
  | get index => exact ⟨s, rfl, h⟩
  | set index t =>
    obtain ⟨s', b, e, hw'⟩ := set_keeps_wellFormed s _ index t hw hn
    exact ⟨s', by simp [perform, e], invariant_of_wellFormed hw' hn⟩
  | remove index =>
    obtain ⟨s', r, m, e, hw', hm⟩ := remove_keeps_wellFormed s _ index hw hn
    exact ⟨s', by simp [perform, e], invariant_of_wellFormed hw' (by omega)⟩
  | pop =>
    obtain ⟨s', r, e, hw'⟩ := pop_keeps_wellFormed s _ hw hn
    exact ⟨s', by simp [perform, e], invariant_of_wellFormed hw' (by omega)⟩
  | shift =>
    obtain ⟨s', r, e, hw'⟩ := shift_keeps_wellFormed s _ hw hn
    exact ⟨s', by simp [perform, e], invariant_of_wellFormed hw' (by omega)⟩
  | clear =>
    refine ⟨clear s, rfl, ?_⟩
    simp [clear, clearLoop_eq_null, Invariant, chainLength]
  | add t =>
    have hlt : s._size < 255 := by simpa [admitted] using ha
    refine ⟨_, by rw [perform, add_eq s _ t hw hn]; rfl, ?_⟩
    rw [incr_of_lt _ hlt]
    exact invariant_of_wellFormed (wellFormed_mk_ofList _ _ (by simp [hlen])) (by omega)
  | unshift t =>
    have hlt : s._size < 255 := by simpa [admitted] using ha
    refine ⟨_, by rw [perform, unshift_eq s _ t hw hn]; rfl, ?_⟩
    rw [incr_of_lt _ hlt]
    exact invariant_of_wellFormed (wellFormed_mk_ofList _ _ (by simp [hlen])) (by omega)
  | addAt index t =>
    have hlt : s._size < 255 ∧ 0 ≤ index := by simpa [admitted] using ha
    refine ⟨_, by rw [perform, addAt_eq s _ index t hw hn hlt.2]; rfl, ?_⟩
    rw [incr_of_lt _ hlt.1]
    exact invariant_of_wellFormed
      (wellFormed_mk_ofList _ _ (by simp [hlen]; omega)) (by omega)

theorem run_keeps_invariant (cs : List Call) (s s' : LinkedPointerList)
    (h : Invariant s) (hr : run s cs = some s') : Invariant s' := by
  induction cs generalizing s with
  | nil =>
    simp only [run, Option.some.injEq] at hr
    rw [← hr]
    exact h
  | cons c cs ih =>
    by_cases ha : admitted s c = true
    · obtain ⟨s1, e, h1⟩ := perform_keeps_invariant s c h ha
      rw [run, if_pos ha] at hr
      simp only [e] at hr
      exact ih s1 h1 hr
    · rw [run, if_neg ha] at hr
      cases hr

/-- C13: the invariant that the chain reachable from `root` has exactly `_size`
nodes holds for the freshly constructed list and implies `_size == 0` iff
`root == NULL`.  From a state with the invariant every admitted call returns and
ends in a state with the invariant: `size`, `get`, `set`, `remove`, `pop`, `shift`
and `clear` with every argument, and `add(x)`, `unshift(x)` and `add(index, x)`
with `index >= 0` while the list holds fewer than 255 entries.  Hence it holds in
every state reached from the constructor by such calls, and every such call
sequence runs to its end. -/
theorem invariant_of_reachable :
    Invariant empty ∧
    (∀ s : LinkedPointerList, Invariant s → (s._size = 0 ↔ s.root = .null)) ∧
    (∀ (s : LinkedPointerList) (c : Call), Invariant s → admitted s c = true →
      ∃ s', perform s c = some s' ∧ Invariant s') ∧
    (∀ (cs : List Call) (s : LinkedPointerList), run empty cs = some s → Invariant s) := by
  have h0 : Invariant empty := by decide
  refine ⟨h0, ?_, perform_keeps_invariant, fun cs s hr => run_keeps_invariant cs empty s h0 hr⟩
  intro s h
  obtain ⟨sz, root⟩ := s
  have hl : chainLength root = sz := h.1
  cases root with
  | null => simp [chainLength] at hl; simp [hl]
  | node d nx => simp [chainLength] at hl; simp; omega

end LinkedPointerList
